import Mathlib

/-!
Verification of the RPN target-construction pipeline of
`src/mrcnn/data/data_generator.py` (functions `build_rpn_targets`,
`DataGenerator.__getitem__` and the retry loop around `load_image_gt`).

Boxes are embedded with rational coordinates (floats idealised as exact
arithmetic; the logarithm in the regression targets lives in `ℝ`).
Numpy arrays become Lean lists, numpy primitives (`argmax`, `where`,
fancy-index assignment) become small recursive functions with the same
semantics, and `np.random.choice(ids, k, replace=False)` becomes an
explicit `choice` parameter constrained to return `k` distinct elements
of `ids`.  A numpy call that raises (argmax over an empty axis) is
modelled by an `Option` result.
-/

/-- A box `(y1, x1, y2, x2)` in pixel coordinates, as used throughout
`data_generator.py`. -/
structure Box where
  y1 : ℚ
  x1 : ℚ
  y2 : ℚ
  x2 : ℚ
deriving DecidableEq, Repr

/-- The all-zero box, used as an out-of-range default and as the value of
zero-filled padding rows. -/
def Box.zero : Box := ⟨0, 0, 0, 0⟩

/-- Modelled from the spec: `utils.compute_overlaps` (in `mrcnn/utils`, not
part of `src/`) computes the dense IoU matrix; the spec defines IoU as the
"overlap ratio between two boxes, in [0,1]", i.e. intersection area over
union area. -/
def iou (a b : Box) : ℚ :=
  let yA := max a.y1 b.y1
  let yB := min a.y2 b.y2
  let xA := max a.x1 b.x1
  let xB := min a.x2 b.x2
  let inter := max (yB - yA) 0 * max (xB - xA) 0
  let areaA := (a.y2 - a.y1) * (a.x2 - a.x1)
  let areaB := (b.y2 - b.y1) * (b.x2 - b.x1)
  inter / (areaA + areaB - inter)

/-- Maximum of a list of rationals (numpy `amax` / row maximum of the
overlap matrix); `0` on the empty list, which only occurs on code paths
the source never reaches with an empty list. -/
def listMax : List ℚ → ℚ
  | [] => 0
  | [v] => v
  | v :: w :: vs => max v (listMax (w :: vs))

/-- Index of the first occurrence of `v`, `length` if absent. -/
def idxOfQ (v : ℚ) : List ℚ → ℕ
  | [] => 0
  | x :: xs => if x = v then 0 else idxOfQ v xs + 1

/-- `np.argmax` over a vector of IoUs: index of the first occurrence of
the maximum value. -/
def argmaxIdx (l : List ℚ) : ℕ := idxOfQ (listMax l) l

theorem le_listMax {l : List ℚ} {x : ℚ} (hx : x ∈ l) : x ≤ listMax l := by
  induction l with
  | nil => cases hx
  | cons v vs ih =>
      match vs, ih with
      | [], _ =>
          rcases List.mem_cons.mp hx with h | h
          · simp [listMax, h]
          · cases h
      | w :: ws, ih =>
          rcases List.mem_cons.mp hx with h | h
          · simp [listMax, h]
          · exact le_trans (ih h) (le_max_right _ _)

theorem listMax_mem {l : List ℚ} (h : l ≠ []) : listMax l ∈ l := by
  induction l with
  | nil => simp at h
  | cons v vs ih =>
      match vs, ih with
      | [], _ => simp [listMax]
      | w :: ws, ih =>
          rcases max_choice v (listMax (w :: ws)) with hm | hm
          · rw [show listMax (v :: w :: ws) = max v (listMax (w :: ws)) from rfl, hm]
            exact List.mem_cons_self v _
          · rw [show listMax (v :: w :: ws) = max v (listMax (w :: ws)) from rfl, hm]
            exact List.mem_cons.mpr (Or.inr (ih (by simp)))

theorem idxOfQ_lt_length {v : ℚ} {l : List ℚ} (h : v ∈ l) :
    idxOfQ v l < l.length := by
  induction l with
  | nil => cases h
  | cons x xs ih =>
      by_cases hx : x = v
      · simp [idxOfQ, hx]
      · rcases List.mem_cons.mp h with h' | h'
        · exact absurd h'.symm hx
        · simpa [idxOfQ, hx] using ih h'

theorem getD_idxOfQ {v : ℚ} {l : List ℚ} (h : v ∈ l) :
    l.getD (idxOfQ v l) 0 = v := by
  induction l with
  | nil => cases h
  | cons x xs ih =>
      by_cases hx : x = v
      · simp [idxOfQ, hx]
      · rcases List.mem_cons.mp h with h' | h'
        · exact absurd h'.symm hx
        · simpa [idxOfQ, hx] using ih h'

theorem argmaxIdx_lt_length {l : List ℚ} (h : l ≠ []) :
    argmaxIdx l < l.length :=
  idxOfQ_lt_length (listMax_mem h)

theorem getD_argmaxIdx {l : List ℚ} (h : l ≠ []) :
    l.getD (argmaxIdx l) 0 = listMax l :=
  getD_idxOfQ (listMax_mem h)

/-- Every entry of a list is at most the entry at its `argmaxIdx`. -/
theorem getD_le_argmaxIdx {l : List ℚ} (h : l ≠ []) {k : ℕ}
    (hk : k < l.length) : l.getD k 0 ≤ l.getD (argmaxIdx l) 0 := by
  rw [getD_argmaxIdx h]
  exact le_listMax (by rw [List.getD_eq_getElem _ _ hk]; exact l.getElem_mem hk)

/-- Fancy-index assignment `m[ixs] = v` on an int vector (numpy writes the
value at every listed index; an out-of-range index cannot occur in the
source and is a no-op here). -/
def setAll : List ℤ → List ℕ → ℤ → List ℤ
  | m, [], _ => m
  | m, i :: ixs, v => setAll (m.set i v) ixs v

/-- `np.where(m == v)[0]` : the sorted indices (counting from `start`) at
which the vector holds `v`. -/
def whereEqAux (v : ℤ) : List ℤ → ℕ → List ℕ
  | [], _ => []
  | x :: xs, i => if x = v then i :: whereEqAux v xs (i + 1) else whereEqAux v xs (i + 1)

/-- Indices of the entries of `m` equal to `v`. -/
def whereEq (m : List ℤ) (v : ℤ) : List ℕ := whereEqAux v m 0

/-- Indices (counting from `start`) of the boxes satisfying `p`, used for
the boolean-mask assignments `rpn_match[cond] = v` of the source. -/
def idxsWhere (p : Box → Bool) : List Box → ℕ → List ℕ
  | [], _ => []
  | a :: as, i => if p a then i :: idxsWhere p as (i + 1) else idxsWhere p as (i + 1)

/-- Write the rows `ts` sequentially into `acc` starting at row `ix`
(the `rpn_bbox[ix] = ...; ix += 1` loop of the source). -/
def writeRows {V : Type} : List V → ℕ → List V → List V
  | acc, _, [] => acc
  | acc, ix, t :: ts => writeRows (acc.set ix t) (ix + 1) ts

theorem getD_set_self {V : Type} {m : List V} {i : ℕ} (v d : V) (h : i < m.length) :
    (m.set i v).getD i d = v := by
  rw [List.getD_eq_getElem _ d (by simpa using h)]
  exact List.getElem_set_self _

theorem getD_set_ne {V : Type} {m : List V} {i j : ℕ} (v d : V) (h : i ≠ j) :
    (m.set i v).getD j d = m.getD j d := by
  by_cases hj : j < m.length
  · rw [List.getD_eq_getElem _ d (by simpa using hj),
      List.getD_eq_getElem _ d hj]
    exact List.getElem_set_ne h _
  · rw [List.getD_eq_default _ _ (by simpa using Nat.le_of_not_lt hj),
      List.getD_eq_default _ _ (Nat.le_of_not_lt hj)]

theorem setAll_length (m : List ℤ) (ixs : List ℕ) (v : ℤ) :
    (setAll m ixs v).length = m.length := by
  induction ixs generalizing m with
  | nil => rfl
  | cons i ixs ih => simp [setAll, ih]

theorem getD_setAll_not_mem {m : List ℤ} {ixs : List ℕ} {v : ℤ} {i : ℕ}
    (d : ℤ) (h : i ∉ ixs) : (setAll m ixs v).getD i d = m.getD i d := by
  induction ixs generalizing m with
  | nil => rfl
  | cons j ixs ih =>
      have hj : j ≠ i := fun hji => h (hji ▸ List.mem_cons_self j ixs)
      rw [setAll, ih (fun hm => h (List.mem_cons.mpr (Or.inr hm))), getD_set_ne _ _ hj]

theorem getD_setAll_mem {m : List ℤ} {ixs : List ℕ} {v : ℤ} {i : ℕ}
    (d : ℤ) (h : i ∈ ixs) (hi : i < m.length) :
    (setAll m ixs v).getD i d = v := by
  induction ixs generalizing m with
  | nil => cases h
  | cons j ixs ih =>
      rw [setAll]
      by_cases hm : i ∈ ixs
      · exact ih hm (by simpa using hi)
      · have hij : i = j := by
          rcases List.mem_cons.mp h with h' | h'
          · exact h'
          · exact absurd h' hm
        rw [getD_setAll_not_mem d hm, hij, getD_set_self _ _ (hij ▸ hi)]

/-- Reading back a value that none of the assignment stages wrote: if the
final value differs from the written value and the index is in range, the
value was already there (and, when it also differs from the pre-state's
value at no index, membership can be excluded). -/
theorem getD_setAll_of_ne {m : List ℤ} {ixs : List ℕ} {v w : ℤ} {i : ℕ}
    (d : ℤ) (hval : (setAll m ixs v).getD i d = w) (hvw : w ≠ v)
    (hi : i < m.length) : m.getD i d = w ∧ i ∉ ixs := by
  by_cases hm : i ∈ ixs
  · rw [getD_setAll_mem d hm hi] at hval
    exact absurd hval.symm hvw
  · exact ⟨by rw [← getD_setAll_not_mem d hm]; exact hval, hm⟩

theorem mem_whereEqAux {v : ℤ} {m : List ℤ} {s j : ℕ} :
    j ∈ whereEqAux v m s ↔ ∃ k, k < m.length ∧ j = s + k ∧ m.getD k 0 = v := by
  induction m generalizing s with
  | nil => simp [whereEqAux]
  | cons x xs ih =>
      constructor
      · intro hj
        by_cases hx : x = v
        · rw [whereEqAux, if_pos hx] at hj
          rcases List.mem_cons.mp hj with h | h
          · exact ⟨0, by simp, by simpa using h, by simpa using hx⟩
          · rcases ih.mp h with ⟨k, hk, hjk, hv⟩
            exact ⟨k + 1, by simpa using hk, by omega, by simpa using hv⟩
        · rw [whereEqAux, if_neg hx] at hj
          rcases ih.mp hj with ⟨k, hk, hjk, hv⟩
          exact ⟨k + 1, by simpa using hk, by omega, by simpa using hv⟩
      · rintro ⟨k, hk, hjk, hv⟩
        cases k with
        | zero =>
            have hx : x = v := by simpa using hv
            rw [whereEqAux, if_pos hx]
            exact List.mem_cons.mpr (Or.inl (by omega))
        | succ k =>
            have hmem : j ∈ whereEqAux v xs (s + 1) :=
              ih.mpr ⟨k, by simpa using hk, by omega, by simpa using hv⟩
            by_cases hx : x = v
            · rw [whereEqAux, if_pos hx]
              exact List.mem_cons.mpr (Or.inr hmem)
            · rw [whereEqAux, if_neg hx]
              exact hmem

theorem mem_whereEq {m : List ℤ} {v : ℤ} {j : ℕ} :
    j ∈ whereEq m v ↔ j < m.length ∧ m.getD j 0 = v := by
  rw [whereEq, mem_whereEqAux]
  constructor
  · rintro ⟨k, hk, hjk, hv⟩
    exact ⟨by omega, by rw [show j = k by omega]; exact hv⟩
  · rintro ⟨hj, hv⟩
    exact ⟨j, hj, by omega, hv⟩

theorem le_of_mem_whereEqAux {v : ℤ} {m : List ℤ} {s j : ℕ}
    (h : j ∈ whereEqAux v m s) : s ≤ j := by
  rcases mem_whereEqAux.mp h with ⟨k, _, hjk, _⟩
  omega

theorem whereEqAux_nodup (v : ℤ) (m : List ℤ) (s : ℕ) :
    (whereEqAux v m s).Nodup := by
  induction m generalizing s with
  | nil => simp [whereEqAux]
  | cons x xs ih =>
      by_cases hx : x = v
      · rw [whereEqAux, if_pos hx]
        refine List.nodup_cons.mpr ⟨fun hmem => ?_, ih (s + 1)⟩
        have := le_of_mem_whereEqAux hmem
        omega
      · rw [whereEqAux, if_neg hx]
        exact ih (s + 1)

theorem whereEq_nodup (m : List ℤ) (v : ℤ) : (whereEq m v).Nodup :=
  whereEqAux_nodup v m 0

theorem whereEqAux_length (v : ℤ) (m : List ℤ) (s : ℕ) :
    (whereEqAux v m s).length = m.count v := by
  induction m generalizing s with
  | nil => simp [whereEqAux]
  | cons x xs ih =>
      by_cases hx : x = v
      · rw [whereEqAux, if_pos hx]
        simp [List.count_cons, hx, ih]
      · rw [whereEqAux, if_neg hx]
        simp [List.count_cons, hx, ih]

theorem whereEq_length (m : List ℤ) (v : ℤ) :
    (whereEq m v).length = m.count v := whereEqAux_length v m 0

theorem count_set_of_getD_eq {m : List ℤ} {i : ℕ} {t w : ℤ}
    (hi : i < m.length) (ht : m.getD i 0 = t) (hw : w ≠ t) :
    (m.set i w).count t + 1 = m.count t := by
  induction m generalizing i with
  | nil => simp at hi
  | cons x xs ih =>
      cases i with
      | zero =>
          have hx : x = t := by simpa using ht
          simp [List.count_cons, hx, hw]
      | succ i =>
          have hrec := ih (by simpa using hi) (by simpa using ht)
          have hset : (x :: xs).set (i + 1) w = x :: xs.set i w := rfl
          rw [hset]
          simp only [List.count_cons]
          omega

theorem count_set_of_getD_ne {m : List ℤ} {i : ℕ} {u w : ℤ}
    (hu : m.getD i 0 ≠ u ∨ m.length ≤ i) (hw : w ≠ u) :
    (m.set i w).count u = m.count u := by
  induction m generalizing i with
  | nil => simp
  | cons x xs ih =>
      cases i with
      | zero =>
          have hx : x ≠ u := by
            rcases hu with hu | hu
            · simpa using hu
            · simp at hu
          simp [List.count_cons, hx, hw]
      | succ i =>
          have hrec : (xs.set i w).count u = xs.count u := by
            refine ih ?_
            rcases hu with hu | hu
            · exact Or.inl (by simpa using hu)
            · exact Or.inr (by simpa using hu)
          have hset : (x :: xs).set (i + 1) w = x :: xs.set i w := rfl
          rw [hset]
          simp only [List.count_cons]
          omega

theorem count_setAll_target {m : List ℤ} {ixs : List ℕ} {t w : ℤ}
    (hnd : ixs.Nodup) (hmem : ∀ i ∈ ixs, i < m.length ∧ m.getD i 0 = t)
    (hw : w ≠ t) : (setAll m ixs w).count t + ixs.length = m.count t := by
  induction ixs generalizing m with
  | nil => simp [setAll]
  | cons i ixs ih =>
      rcases List.nodup_cons.mp hnd with ⟨hi_not, hnd'⟩
      rcases hmem i (List.mem_cons_self i ixs) with ⟨hi, ht⟩
      have hstep : (m.set i w).count t + 1 = m.count t :=
        count_set_of_getD_eq hi ht hw
      have hih : (setAll (m.set i w) ixs w).count t + ixs.length = (m.set i w).count t := by
        refine ih hnd' ?_
        intro j hj
        rcases hmem j (List.mem_cons.mpr (Or.inr hj)) with ⟨hjl, hjt⟩
        have hij : i ≠ j := fun he => hi_not (he ▸ hj)
        exact ⟨by simpa using hjl, by rw [getD_set_ne _ _ hij]; exact hjt⟩
      rw [setAll]
      simp only [List.length_cons]
      omega

theorem count_setAll_other {m : List ℤ} {ixs : List ℕ} {u w : ℤ}
    (hnd : ixs.Nodup) (hu : ∀ i ∈ ixs, m.getD i 0 ≠ u) (hw : w ≠ u) :
    (setAll m ixs w).count u = m.count u := by
  induction ixs generalizing m with
  | nil => simp [setAll]
  | cons i ixs ih =>
      rcases List.nodup_cons.mp hnd with ⟨hi_not, hnd'⟩
      have hstep : (m.set i w).count u = m.count u :=
        count_set_of_getD_ne (Or.inl (hu i (List.mem_cons_self i ixs))) hw
      rw [setAll, ih hnd' ?_, hstep]
      intro j hj
      have hij : i ≠ j := fun he => hi_not (he ▸ hj)
      rw [getD_set_ne _ _ hij]
      exact hu j (List.mem_cons.mpr (Or.inr hj))

theorem writeRows_length {V : Type} (acc : List V) (ix : ℕ) (ts : List V) :
    (writeRows acc ix ts).length = acc.length := by
  induction ts generalizing acc ix with
  | nil => rfl
  | cons t ts ih => simp [writeRows, ih]

theorem getD_writeRows_of_lt {V : Type} {acc : List V} {ix : ℕ} {ts : List V}
    {j : ℕ} (d : V) (hj : j < ix) :
    (writeRows acc ix ts).getD j d = acc.getD j d := by
  induction ts generalizing acc ix with
  | nil => rfl
  | cons t ts ih =>
      rw [writeRows, ih (by omega), getD_set_ne _ _ (by omega)]

theorem getD_writeRows_of_ge {V : Type} {acc : List V} {ix : ℕ} {ts : List V}
    {j : ℕ} (d : V) (hj : ix + ts.length ≤ j) :
    (writeRows acc ix ts).getD j d = acc.getD j d := by
  induction ts generalizing acc ix with
  | nil => rfl
  | cons t ts ih =>
      have hj' : ix + ts.length + 1 ≤ j := by simpa [Nat.add_assoc] using hj
      rw [writeRows, ih (by omega), getD_set_ne _ _ (by omega)]

theorem getD_writeRows_mid {V : Type} {acc : List V} {ix : ℕ} {ts : List V}
    {j : ℕ} (d : V) (h1 : ix ≤ j) (h2 : j < ix + ts.length)
    (h3 : j < acc.length) :
    (writeRows acc ix ts).getD j d = ts.getD (j - ix) d := by
  induction ts generalizing acc ix with
  | nil => simp at h2; omega
  | cons t ts ih =>
      have h2' : j < ix + ts.length + 1 := by simpa [Nat.add_assoc] using h2
      rw [writeRows]
      rcases eq_or_lt_of_le h1 with he | hlt
      · rw [getD_writeRows_of_lt d (by omega), ← he, Nat.sub_self,
          getD_set_self _ _ (he ▸ h3)]
        rfl
      · have hrec : (writeRows (acc.set ix t) (ix + 1) ts).getD j d =
            ts.getD (j - (ix + 1)) d :=
          ih (by omega) (by omega) (by simpa using h3)
        rw [hrec]
        have hsub : j - ix = (j - (ix + 1)) + 1 := by omega
        rw [hsub]
        rfl

theorem mem_idxsWhere {p : Box → Bool} {l : List Box} {s j : ℕ} :
    j ∈ idxsWhere p l s ↔
      ∃ k, k < l.length ∧ j = s + k ∧ p (l.getD k Box.zero) = true := by
  induction l generalizing s with
  | nil => simp [idxsWhere]
  | cons a as ih =>
      constructor
      · intro hj
        by_cases ha : p a = true
        · rw [idxsWhere, if_pos ha] at hj
          rcases List.mem_cons.mp hj with h | h
          · exact ⟨0, by simp, by simpa using h, by simpa using ha⟩
          · rcases ih.mp h with ⟨k, hk, hjk, hv⟩
            exact ⟨k + 1, by simpa using hk, by omega, by simpa using hv⟩
        · rw [idxsWhere, if_neg ha] at hj
          rcases ih.mp hj with ⟨k, hk, hjk, hv⟩
          exact ⟨k + 1, by simpa using hk, by omega, by simpa using hv⟩
      · rintro ⟨k, hk, hjk, hv⟩
        cases k with
        | zero =>
            have ha : p a = true := by simpa using hv
            rw [idxsWhere, if_pos ha]
            exact List.mem_cons.mpr (Or.inl (by omega))
        | succ k =>
            have hmem : j ∈ idxsWhere p as (s + 1) :=
              ih.mpr ⟨k, by simpa using hk, by omega, by simpa using hv⟩
            by_cases ha : p a = true
            · rw [idxsWhere, if_pos ha]
              exact List.mem_cons.mpr (Or.inr hmem)
            · rw [idxsWhere, if_neg ha]
              exact hmem

/-- Whether the image has any COCO crowd annotation
(`crowd_ix.shape[0] > 0` in the source; a crowd has a negative class id). -/
def hasCrowd (ids : List ℤ) : Bool := ids.any (fun c => decide (c < 0))

/-- The crowd boxes `gt_boxes[crowd_ix]`. -/
def crowdBoxes (ids : List ℤ) (boxes : List Box) : List Box :=
  ((ids.zip boxes).filter (fun p => decide (p.1 < 0))).map Prod.snd

/-- The ground-truth boxes actually used for matching: when a crowd is
present the source keeps only the boxes with class id `> 0`
(`non_crowd_ix = np.where(gt_class_ids > 0)`), otherwise it keeps every
box. -/
def nonCrowdGt (ids : List ℤ) (boxes : List Box) : List Box :=
  if hasCrowd ids then
    ((ids.zip boxes).filter (fun p => decide (0 < p.1))).map Prod.snd
  else boxes

/-- `crowd_iou_max` for one anchor: maximum IoU against the crowd boxes. -/
def crowdIouMax (ids : List ℤ) (boxes : List Box) (a : Box) : ℚ :=
  listMax ((crowdBoxes ids boxes).map (iou a))

/-- `no_crowd_bool` for one anchor: `crowd_iou_max < 0.001` when crowds
exist, else `True`. -/
def noCrowdB (ids : List ℤ) (boxes : List Box) (a : Box) : Bool :=
  if hasCrowd ids then decide (crowdIouMax ids boxes a < 1 / 1000) else true

/-- The row of the overlap matrix for one anchor: IoU against each
matching (non-crowd) ground-truth box. -/
def overlapsRow (ids : List ℤ) (boxes : List Box) (a : Box) : List ℚ :=
  (nonCrowdGt ids boxes).map (iou a)

/-- `anchor_iou_argmax` for one anchor. -/
def anchorArgmax (ids : List ℤ) (boxes : List Box) (a : Box) : ℕ :=
  argmaxIdx (overlapsRow ids boxes a)

/-- `anchor_iou_max` for one anchor: the overlap-row entry at the row's
argmax. -/
def anchorIouMax (ids : List ℤ) (boxes : List Box) (a : Box) : ℚ :=
  (overlapsRow ids boxes a).getD (anchorArgmax ids boxes a) 0

/-- The freshly zeroed `rpn_match` array. -/
def match0 (anchors : List Box) : List ℤ := List.replicate anchors.length 0

/-- Anchor indices receiving `-1`: max IoU `< 0.3` and not inside a
crowd. -/
def negMaskIdxs (anchors : List Box) (ids : List ℤ) (boxes : List Box) : List ℕ :=
  idxsWhere
    (fun a => decide (anchorIouMax ids boxes a < 3 / 10) && noCrowdB ids boxes a)
    anchors 0

/-- `rpn_match` after step 1 (negative labelling). -/
def match1 (anchors : List Box) (ids : List ℤ) (boxes : List Box) : List ℤ :=
  setAll (match0 anchors) (negMaskIdxs anchors ids boxes) (-1)

/-- `gt_iou_argmax`: for every matched gt box, the index of the anchor
with the highest IoU against it (argmax down the anchor axis). -/
def gtArgmaxIdxs (anchors : List Box) (ids : List ℤ) (boxes : List Box) : List ℕ :=
  (nonCrowdGt ids boxes).map (fun g => argmaxIdx (anchors.map (fun a => iou a g)))

/-- `rpn_match` after step 2 (coverage: each gt box's best anchor set to
`+1`). -/
def match2 (anchors : List Box) (ids : List ℤ) (boxes : List Box) : List ℤ :=
  setAll (match1 anchors ids boxes) (gtArgmaxIdxs anchors ids boxes) 1

/-- Anchor indices receiving `+1` by threshold: max IoU `≥ 0.7`. -/
def posMaskIdxs (anchors : List Box) (ids : List ℤ) (boxes : List Box) : List ℕ :=
  idxsWhere (fun a => decide (7 / 10 ≤ anchorIouMax ids boxes a)) anchors 0

/-- `rpn_match` after step 3 (threshold positives), i.e. before balance
subsampling. -/
def match3 (anchors : List Box) (ids : List ℤ) (boxes : List Box) : List ℤ :=
  setAll (match2 anchors ids boxes) (posMaskIdxs anchors ids boxes) 1

/-- A model of `np.random.choice(l, k, replace=False)` is valid when, for
every duplicate-free `l` and `k ≤ len(l)`, it returns `k` distinct
elements of `l`. -/
def ValidChoice (choice : List ℕ → ℕ → List ℕ) : Prop :=
  ∀ l k, l.Nodup → k ≤ l.length →
    (choice l k).length = k ∧ (choice l k).Nodup ∧ ∀ x ∈ choice l k, x ∈ l

/-- The deterministic draw that keeps the first `k` candidates; one valid
resolution of `np.random.choice(·, ·, replace=False)`. -/
def takeChoice : List ℕ → ℕ → List ℕ := fun l k => l.take k

theorem takeChoice_valid : ValidChoice takeChoice := by
  intro l k hnd hk
  refine ⟨by simpa [takeChoice] using Nat.min_eq_left hk, ?_, ?_⟩
  · exact hnd.sublist (List.take_sublist k l)
  · intro x hx
    exact List.take_subset k l hx

/-- `rpn_match` after the positive-balance subsample: if the positive
count exceeds `capacity // 2`, the `extra` random positives are reset to
neutral. -/
def matchPos (cap : ℕ) (choice : List ℕ → ℕ → List ℕ)
    (anchors : List Box) (ids : List ℤ) (boxes : List Box) : List ℤ :=
  let m := match3 anchors ids boxes
  let pos := whereEq m 1
  let extra : ℤ := (pos.length : ℤ) - (cap / 2 : ℕ)
  if 0 < extra then setAll m (choice pos extra.toNat) 0 else m

/-- `rpn_match` as returned: after the negative-balance subsample, which
caps the negatives at `capacity - (number of positives)`. -/
def matchFinal (cap : ℕ) (choice : List ℕ → ℕ → List ℕ)
    (anchors : List Box) (ids : List ℤ) (boxes : List Box) : List ℤ :=
  let m := matchPos cap choice anchors ids boxes
  let neg := whereEq m (-1)
  let extra : ℤ := (neg.length : ℤ) - ((cap : ℤ) - (m.count 1 : ℕ))
  if 0 < extra then setAll m (choice neg extra.toNat) 0 else m

/-- The regression target for a positive anchor `a` against its matched gt
box: `((gt_cy - a_cy)/a_h, (gt_cx - a_cx)/a_w, log(gt_h/a_h),
log(gt_w/a_w))`, divided elementwise by the standard-deviation vector
`Config.RPN.BBOX_STD_DEV`. -/
noncomputable def rpnDelta (std : ℝ × ℝ × ℝ × ℝ) (a gt : Box) : ℝ × ℝ × ℝ × ℝ :=
  let gt_h : ℝ := (gt.y2 : ℝ) - (gt.y1 : ℝ)
  let gt_w : ℝ := (gt.x2 : ℝ) - (gt.x1 : ℝ)
  let gt_cy : ℝ := (gt.y1 : ℝ) + 0.5 * gt_h
  let gt_cx : ℝ := (gt.x1 : ℝ) + 0.5 * gt_w
  let a_h : ℝ := (a.y2 : ℝ) - (a.y1 : ℝ)
  let a_w : ℝ := (a.x2 : ℝ) - (a.x1 : ℝ)
  let a_cy : ℝ := (a.y1 : ℝ) + 0.5 * a_h
  let a_cx : ℝ := (a.x1 : ℝ) + 0.5 * a_w
  ((gt_cy - a_cy) / a_h / std.1,
   (gt_cx - a_cx) / a_w / std.2.1,
   Real.log (gt_h / a_h) / std.2.2.1,
   Real.log (gt_w / a_w) / std.2.2.2)

/-- The returned `rpn_bbox` array: `capacity` zero rows, with the target
of the `j`-th positive anchor (in increasing anchor-index order) written
densely into row `j`; each positive anchor is matched to the gt box at
its `anchor_iou_argmax`. -/
noncomputable def rpnBbox (cap : ℕ) (std : ℝ × ℝ × ℝ × ℝ)
    (choice : List ℕ → ℕ → List ℕ) (anchors : List Box) (ids : List ℤ)
    (boxes : List Box) : List (ℝ × ℝ × ℝ × ℝ) :=
  writeRows (List.replicate cap (0, 0, 0, 0)) 0
    ((whereEq (matchFinal cap choice anchors ids boxes) 1).map
      (fun i =>
        rpnDelta std (anchors.getD i Box.zero)
          ((nonCrowdGt ids boxes).getD
            (anchorArgmax ids boxes (anchors.getD i Box.zero)) Box.zero)))

/-- The whole of `build_rpn_targets`.  `np.argmax` raises a `ValueError`
when its reduction axis is empty, which happens exactly when the matched
gt box set is empty while anchors exist (line 148) or anchors are empty
while matched gt boxes exist (line 153); that crash is modelled as
`none`. -/
noncomputable def build_rpn_targets (cap : ℕ) (std : ℝ × ℝ × ℝ × ℝ)
    (choice : List ℕ → ℕ → List ℕ) (anchors : List Box) (gtClassIds : List ℤ)
    (gtBoxes : List Box) : Option (List ℤ × List (ℝ × ℝ × ℝ × ℝ)) :=
  if (nonCrowdGt gtClassIds gtBoxes).isEmpty ≠ anchors.isEmpty then none
  else
    some (matchFinal cap choice anchors gtClassIds gtBoxes,
      rpnBbox cap std choice anchors gtClassIds gtBoxes)

theorem match1_length (anchors : List Box) (ids : List ℤ) (boxes : List Box) :
    (match1 anchors ids boxes).length = anchors.length := by
  rw [match1, setAll_length, match0, List.length_replicate]

theorem match2_length (anchors : List Box) (ids : List ℤ) (boxes : List Box) :
    (match2 anchors ids boxes).length = anchors.length := by
  rw [match2, setAll_length, match1_length]

theorem match3_length (anchors : List Box) (ids : List ℤ) (boxes : List Box) :
    (match3 anchors ids boxes).length = anchors.length := by
  rw [match3, setAll_length, match2_length]

theorem matchPos_length (cap : ℕ) (choice : List ℕ → ℕ → List ℕ)
    (anchors : List Box) (ids : List ℤ) (boxes : List Box) :
    (matchPos cap choice anchors ids boxes).length = anchors.length := by
  rw [matchPos]
  by_cases h : (0:ℤ) < ((whereEq (match3 anchors ids boxes) 1).length : ℤ) - (cap / 2 : ℕ)
  · simp only [h, if_true, setAll_length, match3_length]
  · simp only [h, if_false, match3_length]

theorem matchFinal_length (cap : ℕ) (choice : List ℕ → ℕ → List ℕ)
    (anchors : List Box) (ids : List ℤ) (boxes : List Box) :
    (matchFinal cap choice anchors ids boxes).length = anchors.length := by
  rw [matchFinal]
  set m := matchPos cap choice anchors ids boxes with hm
  by_cases h : (0:ℤ) < ((whereEq m (-1)).length : ℤ) - ((cap : ℤ) - (m.count 1 : ℕ))
  · simp only [h, if_true, setAll_length, hm, matchPos_length]
  · simp only [h, if_false, hm, matchPos_length]

/-- An anchor that ends up negative was made negative by step 1: it lies
in the negative boolean mask. -/
theorem negMask_of_matchFinal_neg {cap : ℕ} {choice : List ℕ → ℕ → List ℕ}
    {anchors : List Box} {ids : List ℤ} {boxes : List Box} {i : ℕ}
    (hi : i < anchors.length)
    (h : (matchFinal cap choice anchors ids boxes).getD i 0 = -1) :
    i ∈ negMaskIdxs anchors ids boxes := by
  have h4 : (matchPos cap choice anchors ids boxes).getD i 0 = -1 := by
    rw [matchFinal] at h
    set m := matchPos cap choice anchors ids boxes with hm
    by_cases hc : (0:ℤ) < ((whereEq m (-1)).length : ℤ) - ((cap : ℤ) - (m.count 1 : ℕ))
    · rw [if_pos hc] at h
      exact (getD_setAll_of_ne 0 h (by decide)
        (by rw [hm, matchPos_length]; exact hi)).1
    · rwa [if_neg hc] at h
  have h3 : (match3 anchors ids boxes).getD i 0 = -1 := by
    rw [matchPos] at h4
    set m := match3 anchors ids boxes with hm
    by_cases hc : (0:ℤ) < ((whereEq m 1).length : ℤ) - (cap / 2 : ℕ)
    · rw [if_pos hc] at h4
      exact (getD_setAll_of_ne 0 h4 (by decide)
        (by rw [hm, match3_length]; exact hi)).1
    · rwa [if_neg hc] at h4
  have h2 : (match2 anchors ids boxes).getD i 0 = -1 := by
    rw [match3] at h3
    exact (getD_setAll_of_ne 0 h3 (by decide)
      (by rw [match2_length]; exact hi)).1
  have h1 : (match1 anchors ids boxes).getD i 0 = -1 := by
    rw [match2] at h2
    exact (getD_setAll_of_ne 0 h2 (by decide)
      (by rw [match1_length]; exact hi)).1
  by_contra hmem
  rw [match1, getD_setAll_not_mem 0 hmem, match0,
    List.getD_eq_getElem _ _ (by simpa using hi), List.getElem_replicate] at h1
  exact absurd h1 (by decide)

/-- Decoding membership in the negative mask. -/
theorem negMask_spec {anchors : List Box} {ids : List ℤ} {boxes : List Box}
    {i : ℕ} (h : i ∈ negMaskIdxs anchors ids boxes) :
    i < anchors.length ∧
      anchorIouMax ids boxes (anchors.getD i Box.zero) < 3 / 10 ∧
      noCrowdB ids boxes (anchors.getD i Box.zero) = true := by
  rcases mem_idxsWhere.mp h with ⟨k, hk, hik, hp⟩
  have hik' : i = k := by omega
  subst hik'
  simp only [Bool.and_eq_true] at hp
  exact ⟨hk, of_decide_eq_true hp.1, hp.2⟩

/-- Step 3 only adds positives: a `+1` of step 2 survives to `match3`. -/
theorem match3_of_match2_pos {anchors : List Box} {ids : List ℤ}
    {boxes : List Box} {i : ℕ} (hi : i < anchors.length)
    (h : (match2 anchors ids boxes).getD i 0 = 1) :
    (match3 anchors ids boxes).getD i 0 = 1 := by
  rw [match3]
  by_cases hmem : i ∈ posMaskIdxs anchors ids boxes
  · exact getD_setAll_mem 0 hmem (by rw [match2_length]; exact hi)
  · rw [getD_setAll_not_mem 0 hmem]
    exact h

/-- Any anchor in the threshold mask is positive in `match3`. -/
theorem match3_of_posMask {anchors : List Box} {ids : List ℤ}
    {boxes : List Box} {i : ℕ} (hmem : i ∈ posMaskIdxs anchors ids boxes) :
    (match3 anchors ids boxes).getD i 0 = 1 := by
  have hi : i < anchors.length := by
    rcases mem_idxsWhere.mp hmem with ⟨k, hk, hik, _⟩
    omega
  rw [match3]
  exact getD_setAll_mem 0 hmem (by rw [match2_length]; exact hi)

/-- After the positive-balance subsample the positive count is at most
`capacity // 2`. -/
theorem count_matchPos_one_le {cap : ℕ} {choice : List ℕ → ℕ → List ℕ}
    (hv : ValidChoice choice) (anchors : List Box) (ids : List ℤ)
    (boxes : List Box) :
    (matchPos cap choice anchors ids boxes).count 1 ≤ cap / 2 := by
  rw [matchPos]
  set m := match3 anchors ids boxes with hm
  set pos := whereEq m 1 with hpos
  have hcount : m.count 1 = pos.length := (whereEq_length m 1).symm
  by_cases hc : (0:ℤ) < (pos.length : ℤ) - (cap / 2 : ℕ)
  · rw [if_pos hc]
    have hk : ((pos.length : ℤ) - (cap / 2 : ℕ)).toNat ≤ pos.length := by omega
    rcases hv pos ((pos.length : ℤ) - (cap / 2 : ℕ)).toNat (whereEq_nodup m 1) hk
      with ⟨hlen, hnd, hsub⟩
    have hmem : ∀ i ∈ choice pos ((pos.length : ℤ) - (cap / 2 : ℕ)).toNat,
        i < m.length ∧ m.getD i 0 = 1 := by
      intro i hi
      exact mem_whereEq.mp (hpos ▸ hsub i hi)
    have := count_setAll_target (w := 0) hnd hmem (by decide)
    omega
  · rw [if_neg hc]
    omega

/-- The negative-balance subsample never changes the positive count. -/
theorem count_matchFinal_one {cap : ℕ} {choice : List ℕ → ℕ → List ℕ}
    (hv : ValidChoice choice) (anchors : List Box) (ids : List ℤ)
    (boxes : List Box) :
    (matchFinal cap choice anchors ids boxes).count 1 =
      (matchPos cap choice anchors ids boxes).count 1 := by
  have hple : (matchPos cap choice anchors ids boxes).count 1 ≤ cap / 2 :=
    count_matchPos_one_le hv anchors ids boxes
  have hcap : cap / 2 ≤ cap := Nat.div_le_self cap 2
  rw [matchFinal]
  set m := matchPos cap choice anchors ids boxes with hm
  set neg := whereEq m (-1) with hneg
  by_cases hc : (0:ℤ) < (neg.length : ℤ) - ((cap : ℤ) - (m.count 1 : ℕ))
  · rw [if_pos hc]
    have hk : ((neg.length : ℤ) - ((cap : ℤ) - (m.count 1 : ℕ))).toNat ≤ neg.length := by
      omega
    rcases hv neg _ (whereEq_nodup m (-1)) hk with ⟨hlen, hnd, hsub⟩
    refine count_setAll_other hnd ?_ (by decide)
    intro i hi
    have := (mem_whereEq.mp (hneg ▸ hsub i hi)).2
    omega
  · rw [if_neg hc]

/-- After both subsamples, `positives + negatives ≤ capacity`. -/
theorem count_matchFinal_sum_le {cap : ℕ} {choice : List ℕ → ℕ → List ℕ}
    (hv : ValidChoice choice) (anchors : List Box) (ids : List ℤ)
    (boxes : List Box) :
    (matchFinal cap choice anchors ids boxes).count 1 +
      (matchFinal cap choice anchors ids boxes).count (-1) ≤ cap := by
  have hple : (matchPos cap choice anchors ids boxes).count 1 ≤ cap / 2 :=
    count_matchPos_one_le hv anchors ids boxes
  have hcap : cap / 2 ≤ cap := Nat.div_le_self cap 2
  have hone : (matchFinal cap choice anchors ids boxes).count 1 =
      (matchPos cap choice anchors ids boxes).count 1 :=
    count_matchFinal_one hv anchors ids boxes
  rw [hone, matchFinal]
  set m := matchPos cap choice anchors ids boxes with hm
  set neg := whereEq m (-1) with hneg
  have hcount : m.count (-1) = neg.length := (whereEq_length m (-1)).symm
  by_cases hc : (0:ℤ) < (neg.length : ℤ) - ((cap : ℤ) - (m.count 1 : ℕ))
  · rw [if_pos hc]
    have hk : ((neg.length : ℤ) - ((cap : ℤ) - (m.count 1 : ℕ))).toNat ≤ neg.length := by
      omega
    rcases hv neg _ (whereEq_nodup m (-1)) hk with ⟨hlen, hnd, hsub⟩
    have hmem : ∀ i ∈ choice neg ((neg.length : ℤ) - ((cap : ℤ) - (m.count 1 : ℕ))).toNat,
        i < m.length ∧ m.getD i 0 = -1 := by
      intro i hi
      exact mem_whereEq.mp (hneg ▸ hsub i hi)
    have := count_setAll_target (w := 0) hnd hmem (by decide)
    omega
  · rw [if_neg hc]
    omega

/-- Truncation toward zero: numpy's cast from float to `np.int32`, which
the padding branch of `DataGenerator.__getitem__` applies when it assigns
the float gt boxes into a zeroed `np.int32` array. -/
def truncZ (q : ℚ) : ℤ := if 0 ≤ q then ⌊q⌋ else ⌈q⌉

/-- A box after the `np.int32` cast of the padding branch. -/
def truncBox (b : Box) : Box :=
  ⟨(truncZ b.y1 : ℤ), (truncZ b.x1 : ℤ), (truncZ b.y2 : ℤ), (truncZ b.x2 : ℤ)⟩

/-- An all-zero instance-mask slice of height `h` and width `w` (one slice
of the zeroed padding array for `gt_masks`). -/
def zeroMask (h w : ℕ) : List (List Bool) := List.replicate h (List.replicate w false)

/-- The ground-truth normalisation of `DataGenerator.__getitem__`
(lines 275-298): if the instance count exceeds
`Config.DETECTION.MAX_GT_INSTANCES` a random index subset `pick`
(modelling `np.random.choice(np.arange(n), maxInst, replace=False)`) is
applied to class ids, boxes and mask slices alike; if it is below, each
array is zero-padded to the capacity, the boxes through an `np.int32`
array (hence truncated); masks are kept as booleans (the source's cast of
a boolean mask to `np.int32` preserves every entry as 0/1). -/
def assembleGt (maxInst : ℕ) (pick : List ℕ) (h w : ℕ) (ids : List ℤ)
    (boxes : List Box) (masks : List (List (List Bool))) :
    List ℤ × List Box × List (List (List Bool)) :=
  if maxInst < boxes.length then
    (pick.map (fun k => ids.getD k 0),
     pick.map (fun k => boxes.getD k Box.zero),
     pick.map (fun k => masks.getD k (zeroMask h w)))
  else if boxes.length < maxInst then
    (ids ++ List.replicate (maxInst - ids.length) 0,
     (boxes.map truncBox) ++ List.replicate (maxInst - boxes.length) Box.zero,
     masks ++ List.replicate (maxInst - masks.length) (zeroMask h w))
  else (ids, boxes, masks)

/-- `np.any(gt_class_ids > 0)`: the loaded sample has at least one
positive-class instance. -/
def hasPositiveSample (ids : List ℤ) : Bool := ids.any (fun c => decide (0 < c))

/-- The `while True` retry loop of `DataGenerator.__getitem__`
(lines 263-269), fuel-indexed: `loads k` is the class-id vector produced
by the `k`-th invocation of `load_image_gt` for the one fixed `image_id`;
the loop returns the first sample containing a positive class id and
otherwise retries forever (no fuel bound exists in the source; `none`
means the loop is still running after `fuel` iterations). -/
def loadLoop (loads : ℕ → List ℤ) : ℕ → ℕ → Option (List ℤ)
  | 0, _ => none
  | fuel + 1, k =>
      if hasPositiveSample (loads k) then some (loads k)
      else loadLoop loads fuel (k + 1)

/-- The retry loop started at the first attempt. -/
def getitemLoad (loads : ℕ → List ℤ) (fuel : ℕ) : Option (List ℤ) :=
  loadLoop loads fuel 0

/-- A positive-class gt box takes part in the matching. -/
theorem getD_mem_nonCrowdGt {ids : List ℤ} {boxes : List Box} {k : ℕ}
    (hlen : ids.length = boxes.length) (hk : k < ids.length)
    (hpos : 0 < ids.getD k 0) :
    boxes.getD k Box.zero ∈ nonCrowdGt ids boxes := by
  have hkb : k < boxes.length := by omega
  have hgetb : boxes.getD k Box.zero = boxes[k] := List.getD_eq_getElem _ _ hkb
  rw [nonCrowdGt]
  by_cases hc : hasCrowd ids = true
  · rw [if_pos hc]
    refine List.mem_map.mpr ⟨(ids[k], boxes[k]), ?_, hgetb.symm⟩
    refine List.mem_filter.mpr ⟨?_, ?_⟩
    · have hkz : k < (ids.zip boxes).length := by
        rw [List.length_zip]; omega
      have hzip : (ids.zip boxes)[k] = (ids[k], boxes[k]) :=
        List.getElem_zip
      rw [← hzip]
      exact List.getElem_mem hkz
    · have : ids.getD k 0 = ids[k] := List.getD_eq_getElem _ _ hk
      simpa using (this ▸ hpos)
  · rw [if_neg hc, hgetb]
    exact List.getElem_mem hkb

/-- A crowd gt box belongs to the crowd box set. -/
theorem getD_mem_crowdBoxes {ids : List ℤ} {boxes : List Box} {k : ℕ}
    (hlen : ids.length = boxes.length) (hk : k < ids.length)
    (hneg : ids.getD k 0 < 0) :
    boxes.getD k Box.zero ∈ crowdBoxes ids boxes := by
  have hkb : k < boxes.length := by omega
  have hgetb : boxes.getD k Box.zero = boxes[k] := List.getD_eq_getElem _ _ hkb
  rw [crowdBoxes]
  refine List.mem_map.mpr ⟨(ids[k], boxes[k]), ?_, hgetb.symm⟩
  refine List.mem_filter.mpr ⟨?_, ?_⟩
  · have hkz : k < (ids.zip boxes).length := by
      rw [List.length_zip]; omega
    have hzip : (ids.zip boxes)[k] = (ids[k], boxes[k]) :=
      List.getElem_zip
    rw [← hzip]
    exact List.getElem_mem hkz
  · have : ids.getD k 0 = ids[k] := List.getD_eq_getElem _ _ hk
    simpa using (this ▸ hneg)

/-- Conversely, every box used for matching stems from a gt entry whose
class id is positive, provided no class id is the background value `0`
(real annotations are positive for instances and negative for crowds):
crowd boxes are never used for matching. -/
theorem nonCrowdGt_from_positive {ids : List ℤ} {boxes : List Box}
    (hlen : ids.length = boxes.length) (h0 : ∀ c ∈ ids, c ≠ 0)
    {b : Box} (hb : b ∈ nonCrowdGt ids boxes) :
    ∃ k, ∃ hk : k < ids.length, 0 < ids.getD k 0 ∧ boxes.getD k Box.zero = b := by
  rw [nonCrowdGt] at hb
  by_cases hc : hasCrowd ids = true
  · rw [if_pos hc] at hb
    rcases List.mem_map.mp hb with ⟨p, hp, hpb⟩
    rcases List.mem_filter.mp hp with ⟨hpz, hppos⟩
    rcases List.mem_iff_getElem.mp hpz with ⟨k, hkz, hpk⟩
    have hkz' : k < (ids.zip boxes).length := hkz
    have hk : k < ids.length := by
      rw [List.length_zip] at hkz'; omega
    have hkb : k < boxes.length := by
      rw [List.length_zip] at hkz'; omega
    have hzip : (ids.zip boxes)[k] = (ids[k], boxes[k]) :=
      List.getElem_zip
    rw [hzip] at hpk
    refine ⟨k, hk, ?_, ?_⟩
    · have : (0:ℤ) < p.1 := by simpa using hppos
      rw [List.getD_eq_getElem _ _ hk]
      rw [← hpk] at this
      exact this
    · rw [List.getD_eq_getElem _ _ hkb, ← hpb, ← hpk]
  · rw [if_neg hc] at hb
    rcases List.mem_iff_getElem.mp hb with ⟨k, hkb, hbk⟩
    have hk : k < ids.length := by omega
    refine ⟨k, hk, ?_, by rw [List.getD_eq_getElem _ _ hkb]; exact hbk⟩
    have hne : ids.getD k 0 ≠ 0 := by
      rw [List.getD_eq_getElem _ _ hk]
      exact h0 _ (List.getElem_mem hk)
    have hnonneg : ¬ ids.getD k 0 < 0 := by
      intro hlt
      apply hc
      rw [hasCrowd, List.any_eq_true]
      refine ⟨ids[k], List.getElem_mem hk, ?_⟩
      rw [List.getD_eq_getElem _ _ hk] at hlt
      simpa using hlt
    omega

/-- Unpacking a successful `build_rpn_targets` call. -/
theorem build_rpn_targets_some {cap : ℕ} {std : ℝ × ℝ × ℝ × ℝ}
    {choice : List ℕ → ℕ → List ℕ} {anchors : List Box} {ids : List ℤ}
    {boxes : List Box} {m : List ℤ} {bb : List (ℝ × ℝ × ℝ × ℝ)}
    (hb : build_rpn_targets cap std choice anchors ids boxes = some (m, bb)) :
    m = matchFinal cap choice anchors ids boxes ∧
      bb = rpnBbox cap std choice anchors ids boxes := by
  rw [build_rpn_targets] at hb
  by_cases hc : (nonCrowdGt ids boxes).isEmpty ≠ anchors.isEmpty
  · rw [if_pos hc] at hb
    cases hb
  · rw [if_neg hc] at hb
    have h := Option.some.inj hb
    exact ⟨(congrArg Prod.fst h).symm, (congrArg Prod.snd h).symm⟩

theorem getD_map {A B : Type} (f : A → B) {l : List A} {k : ℕ}
    (dA : A) (dB : B) (hk : k < l.length) :
    (l.map f).getD k dB = f (l.getD k dA) := by
  rw [List.getD_eq_getElem _ _ (by simpa using hk), List.getElem_map,
    List.getD_eq_getElem _ _ hk]

/-- C6, counterexample: called with zero ground-truth boxes (and a
nonempty anchor set), `build_rpn_targets` does not return a label vector
at all: `np.argmax(overlaps, axis=1)` raises `ValueError` on the empty gt
axis (modelled as `none`), so no match array with all-neutral/negative
labels exists, contrary to the claim. -/
theorem build_rpn_targets_empty_gt_crash :
    ¬ ∃ m bb, build_rpn_targets 2 (1, 1, 1, 1) takeChoice
        [⟨0, 0, 1, 1⟩] [] [] = some (m, bb) := by
  rintro ⟨m, bb, hb⟩
  have hn : build_rpn_targets 2 (1, 1, 1, 1) takeChoice
      [⟨0, 0, 1, 1⟩] [] [] = none := rfl
  rw [hn] at hb
  cases hb

/-- C6, amended: when the set of matchable ground-truth boxes is empty
while the anchor set is not, `build_rpn_targets` raises (modelled as
`none`) instead of returning all-neutral/negative labels; the caller's
retry loop in `__getitem__` is what keeps this input away from the
matcher. -/
theorem build_rpn_targets_none_of_no_gt (cap : ℕ) (std : ℝ × ℝ × ℝ × ℝ)
    (choice : List ℕ → ℕ → List ℕ) (anchors : List Box) (ids : List ℤ)
    (boxes : List Box) (hA : anchors ≠ [])
    (hgt : nonCrowdGt ids boxes = []) :
    build_rpn_targets cap std choice anchors ids boxes = none := by
  rw [build_rpn_targets, if_pos]
  rw [hgt]
  simp [List.isEmpty_iff, hA]

/-- Witness for C6's amended theorem: an image whose only annotation is a
crowd (class id `-1`) has zero matchable gt boxes, and the matcher errors
on it. -/
theorem build_rpn_targets_none_of_no_gt_witness :
    build_rpn_targets 2 (1, 1, 1, 1) takeChoice [⟨0, 0, 4, 4⟩] [-1]
      [⟨0, 0, 2, 2⟩] = none :=
  build_rpn_targets_none_of_no_gt 2 (1, 1, 1, 1) takeChoice [⟨0, 0, 4, 4⟩]
    [-1] [⟨0, 0, 2, 2⟩] (by simp) rfl

/-- C2: in the match array returned by `build_rpn_targets`, for any valid
resolution of the random subsampling, the positive count is at most
`capacity // 2` and positives plus negatives total at most `capacity`. -/
theorem rpn_match_subsample_caps {cap : ℕ} {std : ℝ × ℝ × ℝ × ℝ}
    {choice : List ℕ → ℕ → List ℕ} {anchors : List Box} {ids : List ℤ}
    {boxes : List Box} {m : List ℤ} {bb : List (ℝ × ℝ × ℝ × ℝ)}
    (hv : ValidChoice choice)
    (hb : build_rpn_targets cap std choice anchors ids boxes = some (m, bb)) :
    m.count 1 ≤ cap / 2 ∧ m.count 1 + m.count (-1) ≤ cap := by
  obtain ⟨hm, -⟩ := build_rpn_targets_some hb
  subst hm
  exact ⟨by rw [count_matchFinal_one hv]; exact count_matchPos_one_le hv _ _ _,
    count_matchFinal_sum_le hv _ _ _⟩

/-- Witness for C2 at a concrete single-anchor, single-gt input with
capacity 2. -/
theorem rpn_match_subsample_caps_witness :
    (matchFinal 2 takeChoice [⟨0, 0, 1, 1⟩] [1] [⟨0, 0, 1, 1⟩]).count 1 ≤ 2 / 2 ∧
      (matchFinal 2 takeChoice [⟨0, 0, 1, 1⟩] [1] [⟨0, 0, 1, 1⟩]).count 1 +
        (matchFinal 2 takeChoice [⟨0, 0, 1, 1⟩] [1] [⟨0, 0, 1, 1⟩]).count (-1) ≤ 2 :=
  rpn_match_subsample_caps takeChoice_valid
    (rfl : build_rpn_targets 2 (1, 1, 1, 1) takeChoice [⟨0, 0, 1, 1⟩] [1]
        [⟨0, 0, 1, 1⟩] =
      some (matchFinal 2 takeChoice [⟨0, 0, 1, 1⟩] [1] [⟨0, 0, 1, 1⟩],
        rpnBbox 2 (1, 1, 1, 1) takeChoice [⟨0, 0, 1, 1⟩] [1] [⟨0, 0, 1, 1⟩]))

/-- C5: before the balance subsample, any anchor holding IoU at least 0.7
with some matched gt box is labelled positive in `match3` (the state of
`rpn_match` after step 3 of `build_rpn_targets`), and the threshold step
never removes a positive written by the coverage step (`match2`). -/
theorem threshold_positive_before_subsample {anchors : List Box}
    {ids : List ℤ} {boxes : List Box} {i : ℕ} (hi : i < anchors.length)
    (hiou : ∃ k, ∃ hk : k < (nonCrowdGt ids boxes).length,
      7 / 10 ≤ iou (anchors.getD i Box.zero)
        ((nonCrowdGt ids boxes).getD k Box.zero)) :
    (match3 anchors ids boxes).getD i 0 = 1 ∧
      ∀ j, j < anchors.length → (match2 anchors ids boxes).getD j 0 = 1 →
        (match3 anchors ids boxes).getD j 0 = 1 := by
  obtain ⟨k, hk, hge⟩ := hiou
  have hrow : (overlapsRow ids boxes (anchors.getD i Box.zero)).getD k 0 =
      iou (anchors.getD i Box.zero) ((nonCrowdGt ids boxes).getD k Box.zero) :=
    getD_map _ Box.zero 0 hk
  have hne : overlapsRow ids boxes (anchors.getD i Box.zero) ≠ [] := by
    have : 0 < (overlapsRow ids boxes (anchors.getD i Box.zero)).length := by
      rw [overlapsRow, List.length_map]; omega
    exact List.ne_nil_of_length_pos this
  have hklen : k < (overlapsRow ids boxes (anchors.getD i Box.zero)).length := by
    rw [overlapsRow, List.length_map]; exact hk
  have hmax : 7 / 10 ≤ anchorIouMax ids boxes (anchors.getD i Box.zero) := by
    rw [anchorIouMax, anchorArgmax]
    calc (7:ℚ) / 10 ≤
        (overlapsRow ids boxes (anchors.getD i Box.zero)).getD k 0 := by
          rw [hrow]; exact hge
      _ ≤ _ := getD_le_argmaxIdx hne hklen
  have hmem : i ∈ posMaskIdxs anchors ids boxes := by
    rw [posMaskIdxs]
    exact mem_idxsWhere.mpr ⟨i, hi, by omega, decide_eq_true hmax⟩
  exact ⟨match3_of_posMask hmem, fun j hj h2 => match3_of_match2_pos hj h2⟩

/-- Witness for C5: a single anchor equal to the single gt box (IoU 1). -/
theorem threshold_positive_before_subsample_witness :
    (match3 [⟨0, 0, 1, 1⟩] [1] [⟨0, 0, 1, 1⟩]).getD 0 0 = 1 ∧
      ∀ j, j < ([⟨0, 0, 1, 1⟩] : List Box).length →
        (match2 [⟨0, 0, 1, 1⟩] [1] [⟨0, 0, 1, 1⟩]).getD j 0 = 1 →
        (match3 [⟨0, 0, 1, 1⟩] [1] [⟨0, 0, 1, 1⟩]).getD j 0 = 1 :=
  threshold_positive_before_subsample (by simp)
    ⟨0, by norm_num [nonCrowdGt, hasCrowd],
      by norm_num [nonCrowdGt, hasCrowd, iou, max_def, min_def]⟩

/-- C4: an anchor returned as negative has IoU below 0.3 with every
positive-class gt box and IoU below 0.001 with every crowd box; moreover
only positive-class boxes take part in matching (crowd boxes never feed
positives or regression).  The hypothesis `h0` rules out the background
class id 0, which real annotations never carry (a crowd is negative, an
instance positive). -/
theorem negative_label_conditions {cap : ℕ} {std : ℝ × ℝ × ℝ × ℝ}
    {choice : List ℕ → ℕ → List ℕ} {anchors : List Box} {ids : List ℤ}
    {boxes : List Box} {m : List ℤ} {bb : List (ℝ × ℝ × ℝ × ℝ)} {i : ℕ}
    (hlen : ids.length = boxes.length) (h0 : ∀ c ∈ ids, c ≠ 0)
    (hb : build_rpn_targets cap std choice anchors ids boxes = some (m, bb))
    (hi : i < anchors.length) (hneg : m.getD i 0 = -1) :
    (∀ k, ∀ hk : k < ids.length, 0 < ids.getD k 0 →
        iou (anchors.getD i Box.zero) (boxes.getD k Box.zero) < 3 / 10) ∧
      (∀ k, ∀ hk : k < ids.length, ids.getD k 0 < 0 →
        iou (anchors.getD i Box.zero) (boxes.getD k Box.zero) < 1 / 1000) ∧
      (∀ b ∈ nonCrowdGt ids boxes, ∃ k, ∃ hk : k < ids.length,
        0 < ids.getD k 0 ∧ boxes.getD k Box.zero = b) := by
  obtain ⟨hm, -⟩ := build_rpn_targets_some hb
  subst hm
  obtain ⟨-, hmax, hcrowd⟩ := negMask_spec (negMask_of_matchFinal_neg hi hneg)
  refine ⟨?_, ?_, fun b hbmem => nonCrowdGt_from_positive hlen h0 hbmem⟩
  · intro k hk hkpos
    have hbmem := getD_mem_nonCrowdGt hlen hk hkpos
    have hioumem : iou (anchors.getD i Box.zero) (boxes.getD k Box.zero) ∈
        overlapsRow ids boxes (anchors.getD i Box.zero) := by
      rw [overlapsRow]
      exact List.mem_map_of_mem _ hbmem
    have hne : overlapsRow ids boxes (anchors.getD i Box.zero) ≠ [] :=
      List.ne_nil_of_mem hioumem
    have hle := le_listMax hioumem
    rw [← getD_argmaxIdx hne] at hle
    rw [anchorIouMax, anchorArgmax] at hmax
    exact lt_of_le_of_lt hle hmax
  · intro k hk hkneg
    by_cases hc : hasCrowd ids = true
    · have hbmem := getD_mem_crowdBoxes hlen hk hkneg
      have hioumem : iou (anchors.getD i Box.zero) (boxes.getD k Box.zero) ∈
          (crowdBoxes ids boxes).map (iou (anchors.getD i Box.zero)) :=
        List.mem_map_of_mem _ hbmem
      have hle := le_listMax hioumem
      rw [noCrowdB, if_pos hc] at hcrowd
      have hlt : crowdIouMax ids boxes (anchors.getD i Box.zero) < 1 / 1000 :=
        of_decide_eq_true hcrowd
      rw [crowdIouMax] at hlt
      exact lt_of_le_of_lt hle hlt
    · exfalso
      apply hc
      rw [hasCrowd, List.any_eq_true]
      refine ⟨ids[k], List.getElem_mem hk, ?_⟩
      rw [List.getD_eq_getElem _ _ hk] at hkneg
      simpa using hkneg

/-- Witness for C4: two anchors, one crowd box covering the second anchor
and one positive gt box on the first; the far-away second anchor is not
negative (it is inside the crowd), the first is positive, so we check the
conditions on an input whose returned match has a negative: a lone anchor
far from the single gt box. -/
theorem negative_label_conditions_witness :
    (∀ k, ∀ hk : k < ([1] : List ℤ).length, 0 < ([1] : List ℤ).getD k 0 →
        iou (([⟨0, 0, 1, 1⟩, ⟨10, 10, 11, 11⟩] : List Box).getD 1 Box.zero)
          (([⟨0, 0, 1, 1⟩] : List Box).getD k Box.zero) < 3 / 10) ∧
      (∀ k, ∀ hk : k < ([1] : List ℤ).length, ([1] : List ℤ).getD k 0 < 0 →
        iou (([⟨0, 0, 1, 1⟩, ⟨10, 10, 11, 11⟩] : List Box).getD 1 Box.zero)
          (([⟨0, 0, 1, 1⟩] : List Box).getD k Box.zero) < 1 / 1000) ∧
      (∀ b ∈ nonCrowdGt [1] [⟨0, 0, 1, 1⟩], ∃ k, ∃ hk : k < ([1] : List ℤ).length,
        0 < ([1] : List ℤ).getD k 0 ∧
          ([⟨0, 0, 1, 1⟩] : List Box).getD k Box.zero = b) := by
  refine negative_label_conditions rfl (by decide)
    (rfl : build_rpn_targets 4 (1, 1, 1, 1) takeChoice
        [⟨0, 0, 1, 1⟩, ⟨10, 10, 11, 11⟩] [1] [⟨0, 0, 1, 1⟩] =
      some (matchFinal 4 takeChoice [⟨0, 0, 1, 1⟩, ⟨10, 10, 11, 11⟩] [1]
          [⟨0, 0, 1, 1⟩],
        rpnBbox 4 (1, 1, 1, 1) takeChoice [⟨0, 0, 1, 1⟩, ⟨10, 10, 11, 11⟩] [1]
          [⟨0, 0, 1, 1⟩]))
    (by simp) ?_
  have hmf : matchFinal 4 takeChoice [⟨0, 0, 1, 1⟩, ⟨10, 10, 11, 11⟩] [1]
      [⟨0, 0, 1, 1⟩] = [1, -1] := by
    norm_num [matchFinal, matchPos, match3, match2, match1, match0,
      negMaskIdxs, posMaskIdxs, gtArgmaxIdxs, idxsWhere, whereEq, whereEqAux,
      setAll, nonCrowdGt, hasCrowd, crowdBoxes, crowdIouMax, noCrowdB,
      overlapsRow, anchorArgmax, anchorIouMax, argmaxIdx, idxOfQ, listMax,
      iou, Box.zero, takeChoice, List.count_cons, max_def, min_def]
    rfl
  rw [hmf]
  rfl

/-- C1, amended: before balance subsampling, the best-IoU anchor of every
matched gt box is force-labelled positive (regardless of IoU value); that
positive survives to the returned match array whenever the pre-subsample
positive count does not exceed `capacity // 2` (when it does, the random
reset may drop coverage — see the counterexample). -/
theorem gt_coverage_argmax {cap : ℕ} {choice : List ℕ → ℕ → List ℕ}
    {anchors : List Box} {ids : List ℤ} {boxes : List Box}
    (hv : ValidChoice choice) (hA : anchors ≠ []) {j : ℕ}
    (hj : j < (nonCrowdGt ids boxes).length) :
    (match3 anchors ids boxes).getD
        ((gtArgmaxIdxs anchors ids boxes).getD j 0) 0 = 1 ∧
      ((whereEq (match3 anchors ids boxes) 1).length ≤ cap / 2 →
        (matchFinal cap choice anchors ids boxes).getD
          ((gtArgmaxIdxs anchors ids boxes).getD j 0) 0 = 1) := by
  set idx := (gtArgmaxIdxs anchors ids boxes).getD j 0 with hidxdef
  have hidxval : idx = argmaxIdx (anchors.map
      (fun a => iou a ((nonCrowdGt ids boxes).getD j Box.zero))) := by
    rw [hidxdef, gtArgmaxIdxs, getD_map _ Box.zero 0 hj]
  have hmapne : anchors.map
      (fun a => iou a ((nonCrowdGt ids boxes).getD j Box.zero)) ≠ [] := by
    simpa using hA
  have hidxlt : idx < anchors.length := by
    rw [hidxval]
    have := argmaxIdx_lt_length hmapne
    rwa [List.length_map] at this
  have hjlen : j < (gtArgmaxIdxs anchors ids boxes).length := by
    rw [gtArgmaxIdxs, List.length_map]; exact hj
  have hidxmem : idx ∈ gtArgmaxIdxs anchors ids boxes := by
    rw [hidxdef, List.getD_eq_getElem _ _ hjlen]
    exact List.getElem_mem hjlen
  have h2 : (match2 anchors ids boxes).getD idx 0 = 1 := by
    rw [match2]
    exact getD_setAll_mem 0 hidxmem (by rw [match1_length]; exact hidxlt)
  have h3 : (match3 anchors ids boxes).getD idx 0 = 1 :=
    match3_of_match2_pos hidxlt h2
  refine ⟨h3, fun hle => ?_⟩
  have hposeq : matchPos cap choice anchors ids boxes = match3 anchors ids boxes := by
    rw [matchPos, if_neg]
    have : ((whereEq (match3 anchors ids boxes) 1).length : ℤ) ≤ (cap / 2 : ℕ) := by
      exact_mod_cast hle
    omega
  rw [matchFinal, hposeq]
  set m := match3 anchors ids boxes with hmdef
  have hcount1 : (whereEq m 1).length = m.count 1 := whereEq_length m 1
  have hcnt_le : m.count 1 ≤ cap := by
    have : cap / 2 ≤ cap := Nat.div_le_self cap 2
    omega
  by_cases hc : (0:ℤ) < ((whereEq m (-1)).length : ℤ) - ((cap : ℤ) - (m.count 1 : ℕ))
  · rw [if_pos hc]
    have hk : ((whereEq m (-1)).length : ℤ) - ((cap : ℤ) - (m.count 1 : ℕ)) =
        (((whereEq m (-1)).length : ℤ) - ((cap : ℤ) - (m.count 1 : ℕ))) := rfl
    have hkle : (((whereEq m (-1)).length : ℤ) -
        ((cap : ℤ) - (m.count 1 : ℕ))).toNat ≤ (whereEq m (-1)).length := by
      omega
    rcases hv (whereEq m (-1)) _ (whereEq_nodup m (-1)) hkle with ⟨-, -, hsub⟩
    by_cases hmem : idx ∈ choice (whereEq m (-1))
        (((whereEq m (-1)).length : ℤ) - ((cap : ℤ) - (m.count 1 : ℕ))).toNat
    · exfalso
      have := (mem_whereEq.mp (hsub idx hmem)).2
      rw [h3] at this
      exact absurd this (by decide)
    · rw [getD_setAll_not_mem 0 hmem]
      exact h3
  · rw [if_neg hc]
    exact h3

/-- Witness for C1's amended theorem: one anchor equal to the one gt box,
capacity 2. -/
theorem gt_coverage_argmax_witness :
    (match3 [⟨0, 0, 1, 1⟩] [1] [⟨0, 0, 1, 1⟩]).getD
        ((gtArgmaxIdxs [⟨0, 0, 1, 1⟩] [1] [⟨0, 0, 1, 1⟩]).getD 0 0) 0 = 1 ∧
      ((whereEq (match3 [⟨0, 0, 1, 1⟩] [1] [⟨0, 0, 1, 1⟩]) 1).length ≤ 2 / 2 →
        (matchFinal 2 takeChoice [⟨0, 0, 1, 1⟩] [1] [⟨0, 0, 1, 1⟩]).getD
          ((gtArgmaxIdxs [⟨0, 0, 1, 1⟩] [1] [⟨0, 0, 1, 1⟩]).getD 0 0) 0 = 1) :=
  gt_coverage_argmax takeChoice_valid (by simp)
    (by norm_num [nonCrowdGt, hasCrowd])

/-- C1, counterexample: capacity 2, two anchors each coinciding with one
of two far-apart gt boxes.  Both coverage positives exist before
subsampling, but `capacity // 2 = 1` forces the positive balance step to
reset one of them (here, under the valid draw `takeChoice`, anchor 0), so
gt box 0 is left with no positive anchor in the returned match array: its
best anchor (index 0) is neutral, and the only positive anchor (index 1)
has IoU 0 with it.  The claim's coverage guarantee therefore fails on the
output. -/
theorem gt_coverage_lost_by_subsample :
    ValidChoice takeChoice ∧
      ¬ ∀ j, j < (nonCrowdGt [1, 1] [⟨0, 0, 2, 2⟩, ⟨10, 10, 12, 12⟩]).length →
        (matchFinal 2 takeChoice [⟨0, 0, 2, 2⟩, ⟨10, 10, 12, 12⟩] [1, 1]
            [⟨0, 0, 2, 2⟩, ⟨10, 10, 12, 12⟩]).getD
          ((gtArgmaxIdxs [⟨0, 0, 2, 2⟩, ⟨10, 10, 12, 12⟩] [1, 1]
              [⟨0, 0, 2, 2⟩, ⟨10, 10, 12, 12⟩]).getD j 0) 0 = 1 := by
  refine ⟨takeChoice_valid, fun hall => ?_⟩
  have hlen : (nonCrowdGt [1, 1] [⟨0, 0, 2, 2⟩, ⟨10, 10, 12, 12⟩]).length = 2 := rfl
  have hmf : matchFinal 2 takeChoice [⟨0, 0, 2, 2⟩, ⟨10, 10, 12, 12⟩] [1, 1]
      [⟨0, 0, 2, 2⟩, ⟨10, 10, 12, 12⟩] = [0, 1] := by
    norm_num [matchFinal, matchPos, match3, match2, match1, match0,
      negMaskIdxs, posMaskIdxs, gtArgmaxIdxs, idxsWhere, whereEq, whereEqAux,
      setAll, nonCrowdGt, hasCrowd, crowdBoxes, crowdIouMax, noCrowdB,
      overlapsRow, anchorArgmax, anchorIouMax, argmaxIdx, idxOfQ, listMax,
      iou, Box.zero, takeChoice, List.count_cons, max_def, min_def]
    rfl
  have hga : gtArgmaxIdxs [⟨0, 0, 2, 2⟩, ⟨10, 10, 12, 12⟩] [1, 1]
      [⟨0, 0, 2, 2⟩, ⟨10, 10, 12, 12⟩] = [0, 1] := by
    norm_num [gtArgmaxIdxs, nonCrowdGt, hasCrowd, argmaxIdx, idxOfQ, listMax,
      iou, max_def, min_def]
  have h0 := hall 0 (by rw [hlen]; omega)
  rw [hmf, hga] at h0
  simp at h0

/-- The regression target of an anchor against itself is exactly zero:
the centre offsets vanish and `log(h/h) = log(w/w) = 0` (also in the
degenerate zero-size case, where `0/0 = 0` and `log 0 = 0`). -/
theorem rpnDelta_self (std : ℝ × ℝ × ℝ × ℝ) (a : Box) :
    rpnDelta std a a = (0, 0, 0, 0) := by
  rw [rpnDelta]
  rcases eq_or_ne ((a.y2 : ℝ) - (a.y1 : ℝ)) 0 with hy | hy <;>
    rcases eq_or_ne ((a.x2 : ℝ) - (a.x1 : ℝ)) 0 with hx | hx <;>
      simp [hy, hx, div_self, Real.log_one]

/-- C3: each row `j < K` of the returned regression array is the
standard-deviation-normalised delta of the `j`-th positive anchor (in
increasing anchor-index order) against the gt box at that anchor's
`anchor_iou_argmax`; that argmax box maximises the anchor's IoU over all
matched gt boxes (even when the maximum is below 0.7); and a gt box equal
to its anchor yields the target `(0, 0, 0, 0)`. -/
theorem rpn_bbox_rows {cap : ℕ} {std : ℝ × ℝ × ℝ × ℝ}
    {choice : List ℕ → ℕ → List ℕ} {anchors : List Box} {ids : List ℤ}
    {boxes : List Box} {m : List ℤ} {bb : List (ℝ × ℝ × ℝ × ℝ)}
    (hv : ValidChoice choice)
    (hb : build_rpn_targets cap std choice anchors ids boxes = some (m, bb)) :
    (∀ j, ∀ hj : j < (whereEq m 1).length,
        bb.getD j (0, 0, 0, 0) =
          rpnDelta std (anchors.getD ((whereEq m 1).getD j 0) Box.zero)
            ((nonCrowdGt ids boxes).getD
              (anchorArgmax ids boxes
                (anchors.getD ((whereEq m 1).getD j 0) Box.zero)) Box.zero)) ∧
      (∀ i, i < anchors.length →
        ∀ k, ∀ hk : k < (nonCrowdGt ids boxes).length,
          iou (anchors.getD i Box.zero) ((nonCrowdGt ids boxes).getD k Box.zero) ≤
            iou (anchors.getD i Box.zero)
              ((nonCrowdGt ids boxes).getD
                (anchorArgmax ids boxes (anchors.getD i Box.zero)) Box.zero)) ∧
      (∀ a : Box, rpnDelta std a a = (0, 0, 0, 0)) := by
  obtain ⟨hm, hbb⟩ := build_rpn_targets_some hb
  have hK : (whereEq m 1).length ≤ cap := by
    have h1 : m.count 1 ≤ cap / 2 := by
      rw [hm, count_matchFinal_one hv]
      exact count_matchPos_one_le hv _ _ _
    have h2 : (whereEq m 1).length = m.count 1 := whereEq_length m 1
    have h3 : cap / 2 ≤ cap := Nat.div_le_self cap 2
    omega
  refine ⟨?_, ?_, fun a => rpnDelta_self std a⟩
  · intro j hj
    subst hbb hm
    rw [rpnBbox]
    have hjlen : j < ((whereEq
        (matchFinal cap choice anchors ids boxes) 1).map
          (fun i => rpnDelta std (anchors.getD i Box.zero)
            ((nonCrowdGt ids boxes).getD
              (anchorArgmax ids boxes (anchors.getD i Box.zero)) Box.zero))).length := by
      rw [List.length_map]; exact hj
    rw [getD_writeRows_mid (0, 0, 0, 0) (Nat.zero_le j)
        (by rw [List.length_map]; omega)
        (by rw [List.length_replicate]; omega),
      Nat.sub_zero, getD_map _ 0 (0, 0, 0, 0) hj]
  · intro i hi k hk
    have hanchne : anchors.isEmpty = false := by
      rcases anchors with - | ⟨a, as⟩
      · simp at hi
      · rfl
    have hgtne : nonCrowdGt ids boxes ≠ [] := by
      rw [build_rpn_targets] at hb
      by_cases hc : (nonCrowdGt ids boxes).isEmpty ≠ anchors.isEmpty
      · rw [if_pos hc] at hb; cases hb
      · intro hnil
        apply hc
        rw [hnil, hanchne]
        decide
    have hrowne : (nonCrowdGt ids boxes).map (iou (anchors.getD i Box.zero)) ≠ [] := by
      simpa using hgtne
    have hklen : k <
        ((nonCrowdGt ids boxes).map (iou (anchors.getD i Box.zero))).length := by
      rw [List.length_map]; exact hk
    have harglt : argmaxIdx
        ((nonCrowdGt ids boxes).map (iou (anchors.getD i Box.zero))) <
        (nonCrowdGt ids boxes).length := by
      have := argmaxIdx_lt_length hrowne
      rwa [List.length_map] at this
    have hle := getD_le_argmaxIdx hrowne hklen
    rw [getD_map _ Box.zero 0 hk, getD_map _ Box.zero 0 harglt] at hle
    rw [anchorArgmax, overlapsRow]
    exact hle

/-- Witness for C3: one anchor equal to the one gt box; the anchor is
positive and its target row is the zero vector. -/
theorem rpn_bbox_rows_witness :
    rpnDelta (1, 1, 1, 1) ⟨0, 0, 1, 1⟩ ⟨0, 0, 1, 1⟩ = (0, 0, 0, 0) :=
  (rpn_bbox_rows takeChoice_valid
    (rfl : build_rpn_targets 2 (1, 1, 1, 1) takeChoice [⟨0, 0, 1, 1⟩] [1]
        [⟨0, 0, 1, 1⟩] =
      some (matchFinal 2 takeChoice [⟨0, 0, 1, 1⟩] [1] [⟨0, 0, 1, 1⟩],
        rpnBbox 2 (1, 1, 1, 1) takeChoice [⟨0, 0, 1, 1⟩] [1]
          [⟨0, 0, 1, 1⟩]))).2.2 ⟨0, 0, 1, 1⟩

/-- C9: the returned regression array has exactly `capacity` rows, is
zero-initialised, and only rows `0 .. K-1` are ever written (`K` = number
of positive anchors in the returned match), so every row at index `≥ K`
is exactly the zero 4-vector. -/
theorem rpn_bbox_tail_zero {cap : ℕ} {std : ℝ × ℝ × ℝ × ℝ}
    {choice : List ℕ → ℕ → List ℕ} {anchors : List Box} {ids : List ℤ}
    {boxes : List Box} {m : List ℤ} {bb : List (ℝ × ℝ × ℝ × ℝ)}
    (hb : build_rpn_targets cap std choice anchors ids boxes = some (m, bb)) :
    bb.length = cap ∧
      ∀ j, (whereEq m 1).length ≤ j → bb.getD j (0, 0, 0, 0) = (0, 0, 0, 0) := by
  obtain ⟨hm, hbb⟩ := build_rpn_targets_some hb
  subst hbb hm
  constructor
  · rw [rpnBbox, writeRows_length, List.length_replicate]
  · intro j hjK
    rw [rpnBbox,
      getD_writeRows_of_ge (0, 0, 0, 0) (by rw [List.length_map]; omega)]
    by_cases hj : j < cap
    · rw [List.getD_eq_getElem _ _ (by simpa using hj), List.getElem_replicate]
    · rw [List.getD_eq_default _ _ (by simpa using Nat.le_of_not_lt hj)]

/-- Witness for C9 at the concrete one-anchor input (row 1 lies beyond
`K = 1` and is zero). -/
theorem rpn_bbox_tail_zero_witness :
    (rpnBbox 2 (1, 1, 1, 1) takeChoice [⟨0, 0, 1, 1⟩] [1] [⟨0, 0, 1, 1⟩]).getD 1
      (0, 0, 0, 0) = (0, 0, 0, 0) := by
  have h := (rpn_bbox_tail_zero
    (rfl : build_rpn_targets 2 (1, 1, 1, 1) takeChoice [⟨0, 0, 1, 1⟩] [1]
        [⟨0, 0, 1, 1⟩] =
      some (matchFinal 2 takeChoice [⟨0, 0, 1, 1⟩] [1] [⟨0, 0, 1, 1⟩],
        rpnBbox 2 (1, 1, 1, 1) takeChoice [⟨0, 0, 1, 1⟩] [1]
          [⟨0, 0, 1, 1⟩]))).2 1
  apply h
  have hmf : matchFinal 2 takeChoice [⟨0, 0, 1, 1⟩] [1] [⟨0, 0, 1, 1⟩] = [1] := by
    norm_num [matchFinal, matchPos, match3, match2, match1, match0,
      negMaskIdxs, posMaskIdxs, gtArgmaxIdxs, idxsWhere, whereEq, whereEqAux,
      setAll, nonCrowdGt, hasCrowd, crowdBoxes, crowdIouMax, noCrowdB,
      overlapsRow, anchorArgmax, anchorIouMax, argmaxIdx, idxOfQ, listMax,
      iou, Box.zero, takeChoice, List.count_cons, max_def, min_def]
  rw [hmf]
  decide

/-- C7: in the truncation branch the same random index set (distinct
indices, i.e. sampling without replacement) is applied to class ids,
boxes and mask slices, and in the padding branch all three arrays carry
the original instance at each index below the instance count and zero
padding above it — so the class id, box and mask slice at any index
always describe the same instance. -/
theorem assembleGt_alignment {maxInst : ℕ} {pick : List ℕ} {h w : ℕ}
    {ids : List ℤ} {boxes : List Box} {masks : List (List (List Bool))}
    (hlen1 : ids.length = boxes.length) (hlen2 : masks.length = boxes.length)
    (hpl : pick.length = maxInst) (hpn : pick.Nodup)
    (hps : ∀ x ∈ pick, x < boxes.length) :
    (maxInst < boxes.length →
      ∀ j, j < maxInst →
        (assembleGt maxInst pick h w ids boxes masks).1.getD j 0 =
            ids.getD (pick.getD j 0) 0 ∧
          (assembleGt maxInst pick h w ids boxes masks).2.1.getD j Box.zero =
            boxes.getD (pick.getD j 0) Box.zero ∧
          (assembleGt maxInst pick h w ids boxes masks).2.2.getD j (zeroMask h w) =
            masks.getD (pick.getD j 0) (zeroMask h w)) ∧
      (boxes.length < maxInst →
        (∀ j, j < boxes.length →
          (assembleGt maxInst pick h w ids boxes masks).1.getD j 0 =
              ids.getD j 0 ∧
            (assembleGt maxInst pick h w ids boxes masks).2.1.getD j Box.zero =
              truncBox (boxes.getD j Box.zero) ∧
            (assembleGt maxInst pick h w ids boxes masks).2.2.getD j (zeroMask h w) =
              masks.getD j (zeroMask h w)) ∧
        (∀ j, boxes.length ≤ j →
          (assembleGt maxInst pick h w ids boxes masks).1.getD j 0 = 0 ∧
            (assembleGt maxInst pick h w ids boxes masks).2.1.getD j Box.zero =
              Box.zero ∧
            (assembleGt maxInst pick h w ids boxes masks).2.2.getD j (zeroMask h w) =
              zeroMask h w)) := by
  constructor
  · intro hgt j hj
    rw [assembleGt, if_pos hgt]
    have hjp : j < pick.length := by omega
    exact ⟨getD_map _ 0 0 hjp, getD_map _ 0 Box.zero hjp,
      getD_map _ 0 (zeroMask h w) hjp⟩
  · intro hlt
    constructor
    · intro j hj
      rw [assembleGt, if_neg (by omega), if_pos hlt]
      refine ⟨?_, ?_, ?_⟩
      · exact List.getD_append _ _ _ _ (by omega)
      · rw [List.getD_append _ _ _ _ (by rw [List.length_map]; omega)]
        exact getD_map _ Box.zero Box.zero (by omega)
      · exact List.getD_append _ _ _ _ (by omega)
    · intro j hj
      rw [assembleGt, if_neg (by omega), if_pos hlt]
      refine ⟨?_, ?_, ?_⟩
      · rw [List.getD_append_right _ _ _ _ (by omega)]
        by_cases hjm : j - ids.length < maxInst - ids.length
        · rw [List.getD_eq_getElem _ _ (by simpa using hjm), List.getElem_replicate]
        · rw [List.getD_eq_default _ _ (by simpa using Nat.le_of_not_lt hjm)]
      · rw [List.getD_append_right _ _ _ _ (by rw [List.length_map]; omega)]
        rw [List.length_map]
        by_cases hjm : j - boxes.length < maxInst - boxes.length
        · rw [List.getD_eq_getElem _ _ (by simpa using hjm), List.getElem_replicate]
        · rw [List.getD_eq_default _ _ (by simpa using Nat.le_of_not_lt hjm)]
      · rw [List.getD_append_right _ _ _ _ (by omega)]
        by_cases hjm : j - masks.length < maxInst - masks.length
        · rw [List.getD_eq_getElem _ _ (by simpa using hjm), List.getElem_replicate]
        · rw [List.getD_eq_default _ _ (by simpa using Nat.le_of_not_lt hjm)]

/-- Witness for C7: two instances truncated to capacity 1 through the
valid draw `[1]`. -/
theorem assembleGt_alignment_witness :
    (assembleGt 1 [1] 1 1 [5, 6] [⟨0, 0, 1, 1⟩, ⟨1, 1, 2, 2⟩]
          [zeroMask 1 1, zeroMask 1 1]).1.getD 0 0 =
        ([5, 6] : List ℤ).getD (([1] : List ℕ).getD 0 0) 0 ∧
      (assembleGt 1 [1] 1 1 [5, 6] [⟨0, 0, 1, 1⟩, ⟨1, 1, 2, 2⟩]
          [zeroMask 1 1, zeroMask 1 1]).2.1.getD 0 Box.zero =
        ([⟨0, 0, 1, 1⟩, ⟨1, 1, 2, 2⟩] : List Box).getD
          (([1] : List ℕ).getD 0 0) Box.zero ∧
      (assembleGt 1 [1] 1 1 [5, 6] [⟨0, 0, 1, 1⟩, ⟨1, 1, 2, 2⟩]
          [zeroMask 1 1, zeroMask 1 1]).2.2.getD 0 (zeroMask 1 1) =
        ([zeroMask 1 1, zeroMask 1 1] : List (List (List Bool))).getD
          (([1] : List ℕ).getD 0 0) (zeroMask 1 1) := by
  have h := @assembleGt_alignment 1 [1] 1 1 [5, 6]
    [⟨0, 0, 1, 1⟩, ⟨1, 1, 2, 2⟩] [zeroMask 1 1, zeroMask 1 1]
    rfl rfl rfl (by decide) (by simp)
  exact h.1 (by simp) 0 (by omega)

/-- C10: the zero-padding branch of `__getitem__` copies the boxes through
an `np.int32` array, truncating every fractional coordinate toward zero,
while the truncation branch returns the original coordinates unchanged;
the two branches hence disagree on the same fractional box, exhibited at
`(1/2, 0, 3/2, 1)`. -/
theorem padding_truncates_boxes :
    (∀ maxInst : ℕ, ∀ pick : List ℕ, ∀ h w : ℕ, ∀ ids : List ℤ,
      ∀ boxes : List Box, ∀ masks : List (List (List Bool)), ∀ j : ℕ,
        boxes.length < maxInst → j < boxes.length →
          (assembleGt maxInst pick h w ids boxes masks).2.1.getD j Box.zero =
            truncBox (boxes.getD j Box.zero)) ∧
      (∀ maxInst : ℕ, ∀ pick : List ℕ, ∀ h w : ℕ, ∀ ids : List ℤ,
        ∀ boxes : List Box, ∀ masks : List (List (List Bool)), ∀ j : ℕ,
          maxInst < boxes.length → j < pick.length →
            (assembleGt maxInst pick h w ids boxes masks).2.1.getD j Box.zero =
              boxes.getD (pick.getD j 0) Box.zero) ∧
      ((assembleGt 2 [] 1 1 [1] [⟨1/2, 0, 3/2, 1⟩]
            [zeroMask 1 1]).2.1.getD 0 Box.zero = ⟨0, 0, 1, 1⟩ ∧
        (assembleGt 1 [0] 1 1 [1, 1] [⟨1/2, 0, 3/2, 1⟩, ⟨4, 4, 5, 5⟩]
            [zeroMask 1 1, zeroMask 1 1]).2.1.getD 0 Box.zero =
          ⟨1/2, 0, 3/2, 1⟩ ∧
        (⟨1/2, 0, 3/2, 1⟩ : Box) ≠ ⟨0, 0, 1, 1⟩) := by
  refine ⟨?_, ?_, ?_, ?_, ?_⟩
  · intro maxInst pick h w ids boxes masks j hlt hj
    rw [assembleGt, if_neg (by omega), if_pos hlt,
      List.getD_append _ _ _ _ (by rw [List.length_map]; omega)]
    exact getD_map _ Box.zero Box.zero (by omega)
  · intro maxInst pick h w ids boxes masks j hgt hj
    rw [assembleGt, if_pos hgt]
    exact getD_map _ 0 Box.zero hj
  · norm_num [assembleGt, truncBox, truncZ, Box.zero, zeroMask]
  · norm_num [assembleGt, Box.zero, zeroMask]
  · intro hcontra
    have : (1:ℚ)/2 = 0 := congrArg Box.y1 hcontra
    norm_num at this

/-- Witness for C10's universally quantified padding part at the concrete
fractional box. -/
theorem padding_truncates_boxes_witness :
    (assembleGt 3 [] 1 1 [1] [⟨1/2, 0, 3/2, 1⟩]
        [zeroMask 1 1]).2.1.getD 0 Box.zero =
      truncBox (([⟨1/2, 0, 3/2, 1⟩] : List Box).getD 0 Box.zero) :=
  padding_truncates_boxes.1 3 [] 1 1 [1] [⟨1/2, 0, 3/2, 1⟩] [zeroMask 1 1] 0
    (by simp) (by simp)

theorem loadLoop_some {loads : ℕ → List ℤ} :
    ∀ fuel start s, loadLoop loads fuel start = some s →
      hasPositiveSample s = true ∧
        ∃ k, start ≤ k ∧ k < start + fuel ∧ s = loads k ∧
          ∀ j, start ≤ j → j < k → hasPositiveSample (loads j) = false := by
  intro fuel
  induction fuel with
  | zero => intro start s hs; cases hs
  | succ fuel ih =>
      intro start s hs
      rw [loadLoop] at hs
      by_cases hp : hasPositiveSample (loads start) = true
      · rw [if_pos hp] at hs
        have hss : s = loads start := (Option.some.inj hs).symm
        subst hss
        exact ⟨hp, start, le_refl start, by omega, rfl, fun j h1 h2 => by omega⟩
      · rw [if_neg hp] at hs
        obtain ⟨hpos, k, hk1, hk2, hk3, hk4⟩ := ih (start + 1) s hs
        refine ⟨hpos, k, by omega, by omega, hk3, fun j hj1 hj2 => ?_⟩
        rcases eq_or_lt_of_le hj1 with he | hlt
        · rw [← he]
          exact Bool.eq_false_iff.mpr hp
        · exact hk4 j (by omega) hj2

theorem loadLoop_none {loads : ℕ → List ℤ}
    (hall : ∀ k, hasPositiveSample (loads k) = false) :
    ∀ fuel start, loadLoop loads fuel start = none := by
  intro fuel
  induction fuel with
  | zero => intro start; rfl
  | succ fuel ih =>
      intro start
      rw [loadLoop, if_neg (by rw [hall start]; simp)]
      exact ih (start + 1)

/-- C8: whenever the retry loop of `__getitem__` finishes (within any
fuel bound), the sample it hands to `build_rpn_targets` is the one
returned by the first loader invocation containing a positive class id,
every earlier invocation having had none; and when no invocation ever
yields a positive class id the loop never finishes, whatever the fuel —
the source has no retry bound. -/
theorem getitem_retry_first_positive (loads : ℕ → List ℤ) :
    (∀ fuel s, getitemLoad loads fuel = some s →
      hasPositiveSample s = true ∧
        ∃ k, k < fuel ∧ s = loads k ∧
          ∀ j, j < k → hasPositiveSample (loads j) = false) ∧
      ((∀ k, hasPositiveSample (loads k) = false) →
        ∀ fuel, getitemLoad loads fuel = none) := by
  constructor
  · intro fuel s hs
    obtain ⟨hpos, k, -, hk2, hk3, hk4⟩ := loadLoop_some fuel 0 s hs
    exact ⟨hpos, k, by omega, hk3, fun j hj => hk4 j (by omega) hj⟩
  · intro hall fuel
    exact loadLoop_none hall fuel 0

/-- Witness for C8: the first load has only a crowd id, the second a
positive id; with fuel 2 the loop returns the second sample. -/
theorem getitem_retry_first_positive_witness :
    hasPositiveSample [2] = true ∧
      ∃ k, k < 2 ∧ ([2] : List ℤ) = (fun n => if n = 0 then [-1] else [2]) k ∧
        ∀ j, j < k →
          hasPositiveSample ((fun n => if n = 0 then [-1] else [2]) j) = false :=
  (getitem_retry_first_positive (fun n => if n = 0 then [-1] else [2])).1 2 [2]
    rfl
